import Mathlib

/-!
Shallow embedding of the `pool.js` resource pool (src/pool.ts, the revision
with the `Map`-based in-use registry and `AbortSignal` support) and of its
handler registry (src/utils/queue.ts, the `Set`-based revision exercised by
the repository's `listeners should work` test).

Resources are opaque, identity-compared values; we model them as `Nat`.
A JavaScript `Set` is an insertion-ordered collection without duplicates;
we model it as a `List Nat` whose head is the oldest element:
`Set.prototype.add` appends a missing element at the tail and leaves the
set unchanged otherwise, `Set.prototype.delete` removes the element, and
`set.values().next().value` reads the head.  A JavaScript `Map`'s key set
behaves identically (`Map.set` of a present key overwrites the value but
keeps the key's position), so the in-use registry's key list uses the same
operation.
-/

namespace PoolJs

/-- `Set.prototype.add`: append `x` when missing, otherwise unchanged. -/
def setAdd (s : List Nat) (x : Nat) : List Nat :=
  if x ∈ s then s else s ++ [x]

/-- Key list of `Map.prototype.set`: a present key keeps its position (its
value — the release-deferred — is overwritten), a missing key is appended. -/
def mapSet (s : List Nat) (x : Nat) : List Nat :=
  if x ∈ s then s else s ++ [x]

/-- Pool state: the available set `#resources` and the key list of the
in-use registry `#inUse` (each key's value is its release-deferred). -/
structure PoolState where
  resources : List Nat
  inUse : List Nat
deriving Repr, DecidableEq

/-- Pool configuration: the factory `#create`, returning `none` for the
JS `undefined` (the `Absent` exhaustion signal). -/
structure PoolCfg where
  create : Nat → Option Nat

/-- Getter `size`: the number of available resources. -/
def size (p : PoolState) : Nat := p.resources.length

/-- Getter `inUseSize`: the number of in-use resources. -/
def inUseSize (p : PoolState) : Nat := p.inUse.length

/-- Getter `totalSize`, computed in the source as `this.inUseSize + this.size`. -/
def totalSize (p : PoolState) : Nat := inUseSize p + size p

/-- Observable effects of a pool operation, in source order:
factory invocations (with argument and result), reset-callback invocations,
event emissions, and the re-insertion of a released resource into the
available set. -/
inductive Eff where
  | factoryCall (arg : Nat) (result : Option Nat)
  | resetCall (r : Nat)
  | emitAcquire (r : Nat)
  | emitRelease (r : Nat)
  | readd (r : Nat)
deriving Repr, DecidableEq

/-- Loop body of `Pool.create(size)` over the remaining loop indices:
`const item = this.#create(i); if (item !== undefined) this.#resources.add(item);
else throw new Error('Pool: create resource failed, ...')`.  Returns the
available set after the loop, whether the error was thrown, and the effect
trace.  A thrown error aborts the loop but keeps the additions already made. -/
def createLoop (cfg : PoolCfg) (res : List Nat) : List Nat → List Nat × Bool × List Eff
  | [] => (res, false, [])
  | i :: rest =>
    match cfg.create i with
    | some x =>
      let out := createLoop cfg (setAdd res x) rest
      (out.1, out.2.1, Eff.factoryCall i (some x) :: out.2.2)
    | none => (res, true, [Eff.factoryCall i none])

/-- `Pool.create(size)`: runs the loop over indices `0, 1, ..., size-1`. -/
def createOp (cfg : PoolCfg) (p : PoolState) (n : Nat) : PoolState × Bool × List Eff :=
  let out := createLoop cfg p.resources (List.range n)
  (⟨out.1, p.inUse⟩, out.2.1, out.2.2)

/-- Result of `Pool.acquire(wait, abortSignal)`:
a synchronously returned resource, the synchronous `undefined`, or a
suspended computation.  A suspended computation races the release-deferred
of every resource in the in-use registry *at suspension time* (`wakeKeys`)
against the abort-signal promise when a signal was supplied, or against
`new Promise(() => \x7b\x7d)` — a promise that never settles — when not. -/
inductive AcquireRes where
  | sync (r : Nat)
  | absent
  | suspended (wakeKeys : List Nat) (hasAbort : Bool)
deriving Repr, DecidableEq

/-- `Pool.acquire(wait, abortSignal)`: take the first available resource if
any (moving it into the in-use registry with a fresh release-deferred),
else try lazy creation via `this.#create(this.totalSize)` (a created
resource goes directly in-use), else return `undefined` when not waiting,
else suspend on the race described at `AcquireRes.suspended`.  Returns the
result, the updated state, and the effect trace. -/
def acquireStep (cfg : PoolCfg) (p : PoolState) (wait : Bool) (hasAbort : Bool) :
    AcquireRes × PoolState × List Eff :=
  match p.resources with
  | r :: rest =>
    (AcquireRes.sync r, ⟨rest, mapSet p.inUse r⟩, [Eff.emitAcquire r])
  | [] =>
    match cfg.create (totalSize p) with
    | some x =>
      (AcquireRes.sync x, ⟨[], mapSet p.inUse x⟩,
        [Eff.factoryCall (totalSize p) (some x), Eff.emitAcquire x])
    | none =>
      if wait then
        (AcquireRes.suspended p.inUse hasAbort, p, [Eff.factoryCall (totalSize p) none])
      else
        (AcquireRes.absent, p, [Eff.factoryCall (totalSize p) none])

/-- A suspended `acquire(true)` can ever settle only if one of the promises
it races can settle: a release-deferred in `wakeKeys` (settled exactly when
that resource is released) or the abort promise (settled exactly when the
signal aborts).  With no signal the fallback `new Promise(() => \x7b\x7d)`
never settles. -/
def canSettle (wakeKeys : List Nat) (hasAbort : Bool) : Bool :=
  !wakeKeys.isEmpty || hasAbort

/-- `Pool.release(item)` final state: when `item` is an in-use key, delete it
from the registry, run the reset callback, emit `release`, add it back to the
available set, and resolve its release-deferred; otherwise do nothing. -/
def releaseOp (p : PoolState) (r : Nat) : PoolState :=
  if r ∈ p.inUse then ⟨setAdd p.resources r, p.inUse.erase r⟩ else p

/-- Micro-trace of `Pool.release(item)`: each effect paired with the pool
state at the moment the effect fires, in source order — the reset callback
and the `release` event both run after `#inUse.delete(item)` and before
`#resources.add(item)`. -/
def releaseMicro (p : PoolState) (r : Nat) : List (Eff × PoolState) :=
  if r ∈ p.inUse then
    [(Eff.resetCall r, ⟨p.resources, p.inUse.erase r⟩),
     (Eff.emitRelease r, ⟨p.resources, p.inUse.erase r⟩),
     (Eff.readd r, ⟨setAdd p.resources r, p.inUse.erase r⟩)]
  else []

/-- Public pool operations a client can perform. -/
inductive Op where
  | create (n : Nat)
  | acquire (wait : Bool) (abort : Bool)
  | release (r : Nat)
  | clear
deriving Repr, DecidableEq

/-- State transition of one operation (`clear` empties both collections). -/
def stepOp (cfg : PoolCfg) (p : PoolState) : Op → PoolState
  | Op.create n => (createOp cfg p n).1
  | Op.acquire w a => (acquireStep cfg p w a).2.1
  | Op.release r => releaseOp p r
  | Op.clear => ⟨[], []⟩

/-- Effect trace of one operation. -/
def stepEvs (cfg : PoolCfg) (p : PoolState) : Op → List Eff
  | Op.create n => (createOp cfg p n).2.2
  | Op.acquire w a => (acquireStep cfg p w a).2.2
  | Op.release r => (releaseMicro p r).map Prod.fst
  | Op.clear => []

/-- Run a sequence of operations. -/
def runOps (cfg : PoolCfg) (p : PoolState) : List Op → PoolState
  | [] => p
  | op :: rest => runOps cfg (stepOp cfg p op) rest

/-- Concatenated effect trace of a sequence of operations. -/
def runEvs (cfg : PoolCfg) (p : PoolState) : List Op → List Eff
  | [] => []
  | op :: rest => stepEvs cfg p op ++ runEvs cfg (stepOp cfg p op) rest

/-- Arguments of the factory calls occurring in an effect trace, in order. -/
def factoryArgs (evs : List Eff) : List Nat :=
  evs.filterMap fun e =>
    match e with
    | Eff.factoryCall a _ => some a
    | _ => none

/-- Well-formedness: both collections duplicate-free and disjoint. -/
def wf (p : PoolState) : Prop :=
  p.resources.Nodup ∧ p.inUse.Nodup ∧ ∀ x, x ∈ p.resources → x ∉ p.inUse

instance (p : PoolState) : Decidable (wf p) := by
  unfold wf; infer_instance

/-- Freshness precondition of one bulk `create(n)` call: no resource the
factory can produce during the loop is currently in use. -/
def createFresh (cfg : PoolCfg) (inUse : List Nat) (n : Nat) : Bool :=
  (List.range n).all fun i =>
    match cfg.create i with
    | some x => decide (x ∉ inUse)
    | none => true

/-- Every bulk `create` in the sequence satisfies `createFresh` at the state
where it runs (other operations are unconstrained). -/
def opsOK (cfg : PoolCfg) : PoolState → List Op → Bool
  | _, [] => true
  | p, op :: rest =>
    (match op with
     | Op.create n => createFresh cfg p.inUse n
     | _ => true) && opsOK cfg (stepOp cfg p op) rest

/-- Operations that trigger only lazy creation: `acquire` and `release`
(no bulk `create`, no `clear`). -/
def lazyOp : Op → Bool
  | Op.acquire _ _ => true
  | Op.release _ => true
  | _ => false

/-- What the consumer-supplied function `fn` does once called: complete with
a value, or throw/reject with an error, in either case after `d` time units.
Times are natural numbers of milliseconds (`Date.now()` readings). -/
inductive FnOutcome where
  | ok (v : Nat) (d : Nat)
  | err (e : Nat) (d : Nat)
deriving Repr, DecidableEq

/-- Observable record of one limiter invocation: how its promise settles
(`Except.error` = reject, `Except.ok` = resolve) and when, whether `fn` was
ever called, when `pool.release` was called for it (`none` = never), and the
pool state it leaves behind. -/
structure RunRecord where
  settled : Except Nat Nat
  settleTime : Nat
  fnCalled : Bool
  releaseTime : Option Nat
  finalPool : PoolState
deriving Repr

/-- Body of `limited(fn, ...args)` after `await pool.acquire(true, signal)`
has produced resource `ctx` leaving the pool in state `p1` at time `t0`:
`start = Date.now(); result = await fn.call(ctx, ...); resolve(result);
duration = Date.now() - start; if (duration < minDuration) await
wait(minDuration - duration)`, errors caught by `reject(e)`, and `finally
\x7b if (ctx) pool.release(ctx) \x7d`. -/
def limitedAfterAcquire (minDuration t0 : Nat) (ctx : Nat) (p1 : PoolState)
    (fb : FnOutcome) : RunRecord :=
  match fb with
  | FnOutcome.ok v d =>
    let start := t0
    let fnDone := t0 + d
    let duration := fnDone - start
    let delay := if duration < minDuration then minDuration - duration else 0
    ⟨Except.ok v, fnDone, true, some (fnDone + delay), releaseOp p1 ctx⟩
  | FnOutcome.err e d =>
    ⟨Except.error e, t0 + d, true, some (t0 + d), releaseOp p1 ctx⟩

/-- Body of `limited(fn, ...args)` when the suspended
`pool.acquire(true, signal)` rejects at time `t` because the shared signal
aborted with `reason`: `ctx` stays `undefined`, the `catch` block runs
`reject(reason)`, and the `finally` block skips `pool.release` since `ctx`
is `undefined`.  The pool state `p` is whatever it was — untouched by this
invocation. -/
def limitedAborted (reason t : Nat) (p : PoolState) : RunRecord :=
  ⟨Except.error reason, t, false, none, p⟩

/-- Handler registry of src/utils/queue.ts: a JS `Set` of handlers, modelled
as an insertion-ordered duplicate-free list of handler identities. -/
structure Queued where
  fns : List Nat
deriving Repr, DecidableEq

/-- `queue.add(fn)`: `fnSet.add(fn)`. -/
def qAdd (q : Queued) (f : Nat) : Queued := ⟨setAdd q.fns f⟩

/-- `queue.remove(fn)`: `fnSet.delete(fn)`. -/
def qRemove (q : Queued) (f : Nat) : Queued := ⟨q.fns.erase f⟩

/-- `queue.clear()`: `fnSet.clear()`. -/
def qClear : Queued := ⟨[]⟩

/-- Invoking the queue (what `#emit` does): `fnSet.forEach(fn =>
fn.apply(this, args))` — synchronously calls every handler with the item,
in the set's insertion order, without modifying the set.  Returns the list
of handler invocations in call order paired with the registry afterwards. -/
def qRun (q : Queued) (item : Nat) : List (Nat × Nat) × Queued :=
  (q.fns.map fun f => (f, item), q)

/-- Registration operations a client can perform on one event's registry. -/
inductive QOp where
  | add (f : Nat)
  | remove (f : Nat)
  | clear
deriving Repr, DecidableEq

/-- One registration operation. -/
def qStep (q : Queued) : QOp → Queued
  | QOp.add f => qAdd q f
  | QOp.remove f => qRemove q f
  | QOp.clear => qClear

/-- Registry reached from an empty registry by a sequence of operations. -/
def qBuild (ops : List QOp) : Queued :=
  ops.foldl qStep ⟨[]⟩

/-- One history step of the membership specification below. -/
def regStep (f : Nat) (b : Bool) : QOp → Bool
  | QOp.add g => b || decide (g = f)
  | QOp.remove g => if g = f then false else b
  | QOp.clear => false

/-- Specification of membership, read off the operation history alone:
a handler is currently registered iff it was added and not removed or
cleared since its last addition. -/
def registeredSpec (ops : List QOp) (f : Nat) : Bool :=
  ops.foldl (regStep f) false

/-- Factory that always returns the same resource `0` — the shape of
`Pool.from([x]).create` (`(i) => items[i]`) once `items[0]` is handed out
again. -/
def cfgConst0 : PoolCfg := ⟨fun _ => some 0⟩

/-- Factory producing a fresh resource `100 + i` for every argument `i`. -/
def cfgFresh : PoolCfg := ⟨fun i => some (100 + i)⟩

/-- Exhausted factory: always returns `undefined`. -/
def cfgNone : PoolCfg := ⟨fun _ => none⟩

/-- Factory exhausted after two resources, like `new Pool(2)`. -/
def cfgUpto2 : PoolCfg := ⟨fun i => if i < 2 then some (100 + i) else none⟩

/-- The empty pool state. -/
def pEmpty : PoolState := ⟨[], []⟩

/-- A pool pre-filled with three available resources `A = 10`, `B = 20`,
`C = 30`, in that insertion order. -/
def pABC : PoolState := ⟨[10, 20, 30], []⟩

lemma mem_setAdd {l : List Nat} {x y : Nat} : y ∈ setAdd l x ↔ y ∈ l ∨ y = x := by
  by_cases h : x ∈ l
  · simp only [setAdd, if_pos h]
    exact ⟨Or.inl, fun hy => hy.elim id fun e => e ▸ h⟩
  · simp [setAdd, if_neg h]

lemma setAdd_nodup {l : List Nat} {x : Nat} (h : l.Nodup) : (setAdd l x).Nodup := by
  by_cases hx : x ∈ l
  · simpa [setAdd, if_pos hx] using h
  · simp [setAdd, if_neg hx, List.nodup_append, h, hx]

lemma length_setAdd_of_not_mem {l : List Nat} {x : Nat} (h : x ∉ l) :
    (setAdd l x).length = l.length + 1 := by
  simp [setAdd, if_neg h]

lemma mapSet_eq_append {l : List Nat} {x : Nat} (h : x ∉ l) : mapSet l x = l ++ [x] := by
  simp [mapSet, if_neg h]

lemma mem_mapSet_self {l : List Nat} {x : Nat} : x ∈ mapSet l x := by
  by_cases h : x ∈ l <;> simp [mapSet, h]

lemma erase_mapSet_self {l : List Nat} {x : Nat} (h : x ∉ l) : (mapSet l x).erase x = l := by
  rw [mapSet_eq_append h, List.erase_append_right _ h]
  simp

lemma createFresh_spec {cfg : PoolCfg} {inu : List Nat} {n : Nat}
    (h : createFresh cfg inu n = true) :
    ∀ i, i < n → ∀ x, cfg.create i = some x → x ∉ inu := by
  intro i hi x hx
  simp only [createFresh, List.all_eq_true, List.mem_range] at h
  have hh := h i hi
  rw [hx] at hh
  simpa using hh

lemma wf_createLoop {cfg : PoolCfg} {inu : List Nat} :
    ∀ (L : List Nat) (res : List Nat), res.Nodup → (∀ y ∈ res, y ∉ inu) →
      (∀ i ∈ L, ∀ x, cfg.create i = some x → x ∉ inu) →
      (createLoop cfg res L).1.Nodup ∧ ∀ y ∈ (createLoop cfg res L).1, y ∉ inu
  | [], res, hn, hd, _ => ⟨hn, hd⟩
  | i :: rest, res, hn, hd, hL => by
    cases hc : cfg.create i with
    | some x =>
      have hx : x ∉ inu := hL i (List.mem_cons_self i rest) x hc
      have hstep := wf_createLoop rest (setAdd res x) (setAdd_nodup hn)
        (fun y hy => (mem_setAdd.1 hy).elim (hd y) (fun e => e ▸ hx))
        (fun j hj => hL j (List.mem_cons_of_mem i hj))
      simpa [createLoop, hc] using hstep
    | none => simpa [createLoop, hc] using ⟨hn, hd⟩

lemma wf_createOp {cfg : PoolCfg} {p : PoolState} {n : Nat}
    (h : wf p) (hf : createFresh cfg p.inUse n = true) :
    wf (createOp cfg p n).1 := by
  obtain ⟨hres, hin, hdisj⟩ := h
  have hL : ∀ i ∈ List.range n, ∀ x, cfg.create i = some x → x ∉ p.inUse := by
    intro i hi x hx
    exact createFresh_spec hf i (List.mem_range.1 hi) x hx
  have hloop := wf_createLoop (List.range n) p.resources hres
    (fun y hy => hdisj y hy) hL
  exact ⟨hloop.1, hin, hloop.2⟩

lemma wf_acquireStep (cfg : PoolCfg) (w a : Bool) {p : PoolState} (h : wf p) :
    wf (acquireStep cfg p w a).2.1 := by
  obtain ⟨res, inu⟩ := p
  obtain ⟨hres, hin, hdisj⟩ := h
  cases res with
  | cons r rest =>
    have hrinu : r ∉ inu := hdisj r (List.mem_cons_self r rest)
    have hrrest : r ∉ rest := (List.nodup_cons.1 hres).1
    refine ⟨(List.nodup_cons.1 hres).2, setAdd_nodup hin, ?_⟩
    intro y hy
    have hyinu : y ∉ inu := hdisj y (List.mem_cons_of_mem r hy)
    have hyr : y ≠ r := fun e => hrrest (e ▸ hy)
    intro hmem
    rcases mem_setAdd.1 hmem with h1 | h1
    · exact hyinu h1
    · exact hyr h1
  | nil =>
    cases hc : cfg.create (totalSize ⟨[], inu⟩) with
    | some x =>
      simp only [acquireStep, hc]
      refine ⟨List.nodup_nil, setAdd_nodup hin, ?_⟩
      intro y hy
      exact absurd hy (List.not_mem_nil y)
    | none =>
      cases w <;> simp [acquireStep, hc] <;> exact ⟨hres, hin, hdisj⟩

lemma wf_releaseOp {p : PoolState} (r : Nat) (h : wf p) : wf (releaseOp p r) := by
  obtain ⟨hres, hin, hdisj⟩ := h
  unfold releaseOp
  by_cases hr : r ∈ p.inUse
  · simp only [if_pos hr]
    refine ⟨setAdd_nodup hres, hin.erase r, ?_⟩
    intro y hy
    rcases mem_setAdd.1 hy with h1 | h1
    · exact fun hmem => hdisj y h1 (List.mem_of_mem_erase hmem)
    · exact h1 ▸ hin.not_mem_erase
  · simp only [if_neg hr]
    exact ⟨hres, hin, hdisj⟩

lemma wf_stepOp {cfg : PoolCfg} {p : PoolState} {op : Op}
    (h : wf p)
    (hg : (match op with
           | Op.create n => createFresh cfg p.inUse n
           | _ => true) = true) :
    wf (stepOp cfg p op) := by
  cases op with
  | create n => exact wf_createOp h hg
  | acquire w a => exact wf_acquireStep cfg w a h
  | release r => exact wf_releaseOp r h
  | clear => exact ⟨List.nodup_nil, List.nodup_nil, fun x hx => absurd hx (List.not_mem_nil x)⟩

lemma wf_runOps {cfg : PoolCfg} :
    ∀ (ops : List Op) (p : PoolState), wf p → opsOK cfg p ops = true →
      wf (runOps cfg p ops)
  | [], p, h, _ => h
  | op :: rest, p, h, hok => by
    have hok' := hok
    simp only [opsOK, Bool.and_eq_true] at hok'
    exact wf_runOps rest (stepOp cfg p op) (wf_stepOp h hok'.1) hok'.2

lemma acquireStep_sync_inv (cfg : PoolCfg) {p p1 : PoolState} {r : Nat} {evs : List Eff}
    {w a : Bool}
    (h : acquireStep cfg p w a = (AcquireRes.sync r, p1, evs)) :
    (∃ rest, p.resources = r :: rest ∧ p1 = ⟨rest, mapSet p.inUse r⟩) ∨
    (p.resources = [] ∧ cfg.create (totalSize p) = some r ∧ p1 = ⟨[], mapSet p.inUse r⟩) := by
  obtain ⟨res, inu⟩ := p
  cases res with
  | cons x rest =>
    left
    have h' : x = r ∧ (⟨rest, mapSet inu x⟩ : PoolState) = p1 ∧ [Eff.emitAcquire x] = evs := by
      have := h
      simp only [acquireStep, Prod.mk.injEq, AcquireRes.sync.injEq] at this
      exact this
    obtain ⟨rfl, h2, _⟩ := h'
    exact ⟨rest, rfl, h2.symm⟩
  | nil =>
    right
    cases hc : cfg.create (totalSize ⟨[], inu⟩) with
    | some x =>
      have h' : x = r ∧ (⟨[], mapSet inu x⟩ : PoolState) = p1 ∧
          [Eff.factoryCall (totalSize ⟨[], inu⟩) (some x), Eff.emitAcquire x] = evs := by
        have := h
        simp only [acquireStep, hc, Prod.mk.injEq, AcquireRes.sync.injEq] at this
        exact this
      obtain ⟨rfl, h2, _⟩ := h'
      exact ⟨rfl, rfl, h2.symm⟩
    | none => cases w <;> simp [acquireStep, hc] at h

/-- Claim C1, counterexample: disjointness of the available set and the
in-use registry does NOT hold at every reachable state.  With the factory
`() => 0` (the shape of `Pool.from`'s `(i) => items[i]`), the sequence
`create(1); acquire(); create(1)` reaches a state where resource `0` is in
both collections: the second bulk create calls the factory with loop index
`0` again and `#resources.add` re-adds the resource that is still in use. -/
theorem c1_counterexample :
    0 ∈ (runOps cfgConst0 pEmpty [Op.create 1, Op.acquire false false, Op.create 1]).resources ∧
    0 ∈ (runOps cfgConst0 pEmpty [Op.create 1, Op.acquire false false, Op.create 1]).inUse := by
  decide

/-- Claim C1, amended: for every reachable pool state, PROVIDED every bulk
`create` only ever receives factory outputs that are not currently in use
(automatic for factories producing fresh objects, such as the default
`Object.create(null)`), the available set and the in-use registry are
disjoint; and `availableSize + inUseSize == totalSize` holds — the latter
unconditionally, since the getter computes `totalSize` as exactly that sum. -/
theorem c1_amended_disjoint_sum (cfg : PoolCfg) (p : PoolState) (ops : List Op)
    (hwf : wf p) (hok : opsOK cfg p ops = true) :
    (∀ x, x ∈ (runOps cfg p ops).resources → x ∉ (runOps cfg p ops).inUse) ∧
    size (runOps cfg p ops) + inUseSize (runOps cfg p ops) = totalSize (runOps cfg p ops) := by
  refine ⟨(wf_runOps ops p hwf hok).2.2, ?_⟩
  unfold totalSize
  exact Nat.add_comm _ _

/-- Witness for C1 amended: the empty pool, a fresh factory, and the
sequence `create(2); acquire(); release(100)`. -/
theorem c1_amended_disjoint_sum_witness :
    wf pEmpty ∧
    opsOK cfgFresh pEmpty [Op.create 2, Op.acquire false false, Op.release 100] = true ∧
    ((∀ x, x ∈ (runOps cfgFresh pEmpty [Op.create 2, Op.acquire false false, Op.release 100]).resources →
        x ∉ (runOps cfgFresh pEmpty [Op.create 2, Op.acquire false false, Op.release 100]).inUse) ∧
      size (runOps cfgFresh pEmpty [Op.create 2, Op.acquire false false, Op.release 100]) +
        inUseSize (runOps cfgFresh pEmpty [Op.create 2, Op.acquire false false, Op.release 100]) =
        totalSize (runOps cfgFresh pEmpty [Op.create 2, Op.acquire false false, Op.release 100])) :=
  ⟨by decide, by decide,
    c1_amended_disjoint_sum cfgFresh pEmpty
      [Op.create 2, Op.acquire false false, Op.release 100] (by decide) (by decide)⟩

/-- Claim C5 (confirmed): for a well-formed pool whose available set starts
with `r` (`r` is the resource a synchronous `acquire()` hands out),
acquiring and then releasing `r` restores `availableSize` to its
pre-acquire value, and the release runs the reset callback exactly once,
strictly before `r` re-enters the available set: the release micro-trace is
exactly `[reset r, emit release r, re-add r]`, at the moment the reset
callback fires `r` is not yet in the available set, and `r` is in the
available set afterwards. -/
theorem c5_round_trip_reset (cfg : PoolCfg) (p p1 : PoolState) (r : Nat)
    (rest : List Nat) (evs : List Eff)
    (hwf : wf p) (hres : p.resources = r :: rest)
    (hacq : acquireStep cfg p false false = (AcquireRes.sync r, p1, evs)) :
    size (releaseOp p1 r) = size p ∧
    (releaseMicro p1 r).map Prod.fst = [Eff.resetCall r, Eff.emitRelease r, Eff.readd r] ∧
    (∀ ep ∈ releaseMicro p1 r, ep.1 = Eff.resetCall r → r ∉ ep.2.resources) ∧
    r ∈ (releaseOp p1 r).resources := by
  obtain ⟨res, inu⟩ := p
  obtain ⟨hnres, hnin, hdisj⟩ := hwf
  simp only at hres
  subst hres
  have hrinu : r ∉ inu := hdisj r (List.mem_cons_self r rest)
  have hrrest : r ∉ rest := (List.nodup_cons.1 hnres).1
  have hp1 : p1 = ⟨rest, mapSet inu r⟩ := by
    have := congrArg (fun t => t.2.1) hacq
    simpa [acquireStep] using this.symm
  subst hp1
  have hrin1 : r ∈ mapSet inu r := mem_mapSet_self
  refine ⟨?_, ?_, ?_, ?_⟩
  · simp only [releaseOp, if_pos hrin1, size]
    exact length_setAdd_of_not_mem hrrest
  · simp [releaseMicro, hrin1]
  · intro ep hep hre
    simp only [releaseMicro, if_pos hrin1, List.mem_cons, List.not_mem_nil, or_false] at hep
    rcases hep with h | h | h
    · rw [h]; exact hrrest
    · rw [h]; exact hrrest
    · simp [h] at hre
  · simp only [releaseOp, if_pos hrin1]
    exact mem_setAdd.2 (Or.inr rfl)

/-- Witness for C5: the pre-filled pool `[10, 20, 30]`. -/
theorem c5_round_trip_reset_witness :
    wf pABC ∧ pABC.resources = 10 :: [20, 30] ∧
    acquireStep cfgNone pABC false false =
      (AcquireRes.sync 10, ⟨[20, 30], [10]⟩, [Eff.emitAcquire 10]) ∧
    (size (releaseOp ⟨[20, 30], [10]⟩ 10) = size pABC ∧
      (releaseMicro (⟨[20, 30], [10]⟩ : PoolState) 10).map Prod.fst =
        [Eff.resetCall 10, Eff.emitRelease 10, Eff.readd 10] ∧
      (∀ ep ∈ releaseMicro (⟨[20, 30], [10]⟩ : PoolState) 10,
          ep.1 = Eff.resetCall 10 → 10 ∉ ep.2.resources) ∧
      10 ∈ (releaseOp ⟨[20, 30], [10]⟩ 10).resources) :=
  ⟨by decide, by decide, by decide,
    c5_round_trip_reset cfgNone pABC ⟨[20, 30], [10]⟩ 10 [20, 30] [Eff.emitAcquire 10]
      (by decide) (by decide) (by decide)⟩

/-- Claim C6 (confirmed): when the available set is non-empty, synchronous
`acquire()` removes and returns resources in insertion order.  For any pool
whose available set is `a :: b :: c :: rest`, three sequential synchronous
acquires return `a`, then `b`, then `c`; each acquired resource is moved
into the in-use registry (`#inUse.set(item, withResolvers())` — a fresh
release-deferred), and the available set that remains is `rest`. -/
theorem c6_fifo_acquire (cfg : PoolCfg) (p : PoolState) (a b c : Nat) (rest : List Nat)
    (h : p.resources = a :: b :: c :: rest) :
    (acquireStep cfg p false false).1 = AcquireRes.sync a ∧
    a ∈ (acquireStep cfg p false false).2.1.inUse ∧
    (acquireStep cfg (acquireStep cfg p false false).2.1 false false).1 = AcquireRes.sync b ∧
    b ∈ (acquireStep cfg (acquireStep cfg p false false).2.1 false false).2.1.inUse ∧
    (acquireStep cfg
        (acquireStep cfg (acquireStep cfg p false false).2.1 false false).2.1
        false false).1 = AcquireRes.sync c ∧
    c ∈ (acquireStep cfg
        (acquireStep cfg (acquireStep cfg p false false).2.1 false false).2.1
        false false).2.1.inUse ∧
    (acquireStep cfg
        (acquireStep cfg (acquireStep cfg p false false).2.1 false false).2.1
        false false).2.1.resources = rest := by
  obtain ⟨res, inu⟩ := p
  simp only at h
  subst h
  refine ⟨rfl, ?_, rfl, ?_, rfl, ?_, rfl⟩
  · exact mem_mapSet_self
  · exact mem_mapSet_self
  · exact mem_mapSet_self

/-- Witness for C6: the pool pre-filled with `[A, B, C] = [10, 20, 30]`. -/
theorem c6_fifo_acquire_witness :
    pABC.resources = 10 :: 20 :: 30 :: [] ∧
    ((acquireStep cfgNone pABC false false).1 = AcquireRes.sync 10 ∧
      10 ∈ (acquireStep cfgNone pABC false false).2.1.inUse ∧
      (acquireStep cfgNone (acquireStep cfgNone pABC false false).2.1 false false).1 =
        AcquireRes.sync 20 ∧
      20 ∈ (acquireStep cfgNone (acquireStep cfgNone pABC false false).2.1 false false).2.1.inUse ∧
      (acquireStep cfgNone
          (acquireStep cfgNone (acquireStep cfgNone pABC false false).2.1 false false).2.1
          false false).1 = AcquireRes.sync 30 ∧
      30 ∈ (acquireStep cfgNone
          (acquireStep cfgNone (acquireStep cfgNone pABC false false).2.1 false false).2.1
          false false).2.1.inUse ∧
      (acquireStep cfgNone
          (acquireStep cfgNone (acquireStep cfgNone pABC false false).2.1 false false).2.1
          false false).2.1.resources = []) :=
  ⟨by decide, c6_fifo_acquire cfgNone pABC 10 20 30 [] (by decide)⟩

/-- Claim C10 (confirmed): `acquire(wait=true)` with no abort signal, on a
pool whose available set is empty, whose in-use registry is empty
(`totalSize = 0`), and whose factory returns `Absent`, returns a suspended
computation that races over no release-deferred at all (`wakeKeys = []`)
and, lacking a signal, over `new Promise(() => \x7b\x7d)`; `canSettle`
being `false` states that no promise in the race can ever settle, so the
returned promise never resolves nor rejects. -/
theorem c10_never_settles (cfg : PoolCfg) (p : PoolState)
    (hres : p.resources = []) (hinu : p.inUse = [])
    (hnone : cfg.create (totalSize p) = none) :
    acquireStep cfg p true false =
      (AcquireRes.suspended [] false, p, [Eff.factoryCall (totalSize p) none]) ∧
    canSettle [] false = false := by
  obtain ⟨res, inu⟩ := p
  simp only at hres hinu
  subst hres
  subst hinu
  refine ⟨?_, rfl⟩
  simp [acquireStep, hnone]

/-- Witness for C10: the empty pool with the exhausted factory. -/
theorem c10_never_settles_witness :
    pEmpty.resources = [] ∧ pEmpty.inUse = [] ∧
    cfgNone.create (totalSize pEmpty) = none ∧
    (acquireStep cfgNone pEmpty true false =
        (AcquireRes.suspended [] false, pEmpty, [Eff.factoryCall (totalSize pEmpty) none]) ∧
      canSettle [] false = false) :=
  ⟨rfl, rfl, rfl, c10_never_settles cfgNone pEmpty rfl rfl rfl⟩

/-- Claim C2 (confirmed): when the consumer function completes successfully
after `D` time units with configured `minDuration = T`, the invocation's
promise resolves with the function's result at `t0 + D` — the instant `fn`
completes, not after any throttle delay — and only `pool.release` is
delayed: it runs at `settleTime + (T - D)` (natural subtraction: `0` extra
delay when `D ≥ T`), i.e. at `t0 + max D T`. -/
theorem c2_throttle_release_only (T t0 D v ctx : Nat) (p1 : PoolState) :
    (limitedAfterAcquire T t0 ctx p1 (FnOutcome.ok v D)).settled = Except.ok v ∧
    (limitedAfterAcquire T t0 ctx p1 (FnOutcome.ok v D)).settleTime = t0 + D ∧
    (limitedAfterAcquire T t0 ctx p1 (FnOutcome.ok v D)).releaseTime =
      some ((limitedAfterAcquire T t0 ctx p1 (FnOutcome.ok v D)).settleTime + (T - D)) ∧
    (limitedAfterAcquire T t0 ctx p1 (FnOutcome.ok v D)).releaseTime =
      some (t0 + max D T) := by
  have hif : (if D < T then T - D else 0) = T - D := by
    rcases Nat.lt_or_ge D T with h | h
    · simp [h]
    · simp [Nat.not_lt.2 h, Nat.sub_eq_zero_of_le h]
  refine ⟨rfl, ?_, ?_, ?_⟩
  · simp [limitedAfterAcquire]
  · simp only [limitedAfterAcquire, Nat.add_sub_cancel_left, hif]
  · simp only [limitedAfterAcquire, Nat.add_sub_cancel_left, hif]
    congr 1
    omega

/-- Claim C3 (confirmed): an invocation whose `pool.acquire(true, signal)`
is still suspended when the shared signal aborts with `reason` rejects with
that reason, never calls `fn`, never calls `pool.release`, and leaves the
pool state exactly as it was: a suspended acquire performed no state
mutation (`p2 = p`), and the `finally` block skips release because `ctx`
is still `undefined`. -/
theorem c3_abort_while_pending (cfg : PoolCfg) (p p2 : PoolState)
    (ks : List Nat) (hb : Bool) (evs : List Eff) (reason t : Nat)
    (hsusp : acquireStep cfg p true true = (AcquireRes.suspended ks hb, p2, evs)) :
    (limitedAborted reason t p2).settled = Except.error reason ∧
    (limitedAborted reason t p2).fnCalled = false ∧
    (limitedAborted reason t p2).releaseTime = none ∧
    (limitedAborted reason t p2).finalPool = p ∧
    p2 = p := by
  have hp2 : p2 = p := by
    obtain ⟨res, inu⟩ := p
    cases res with
    | cons r rest => simp [acquireStep] at hsusp
    | nil =>
      cases hc : cfg.create (totalSize ⟨[], inu⟩) with
      | some x => simp [acquireStep, hc] at hsusp
      | none =>
        have := congrArg (fun u => u.2.1) hsusp
        simpa [acquireStep, hc] using this.symm
  exact ⟨rfl, rfl, rfl, hp2, hp2⟩

/-- Witness for C3: an exhausted-factory pool with resource `5` in use;
`acquire(true, signal)` suspends racing `5`'s release-deferred and the
signal, and the abort path follows. -/
theorem c3_abort_while_pending_witness :
    acquireStep cfgNone ⟨[], [5]⟩ true true =
      (AcquireRes.suspended [5] true, ⟨[], [5]⟩, [Eff.factoryCall 1 none]) ∧
    ((limitedAborted 77 9 ⟨[], [5]⟩).settled = Except.error 77 ∧
      (limitedAborted 77 9 ⟨[], [5]⟩).fnCalled = false ∧
      (limitedAborted 77 9 ⟨[], [5]⟩).releaseTime = none ∧
      (limitedAborted 77 9 ⟨[], [5]⟩).finalPool = ⟨[], [5]⟩ ∧
      (⟨[], [5]⟩ : PoolState) = ⟨[], [5]⟩) :=
  ⟨by decide,
    c3_abort_while_pending cfgNone ⟨[], [5]⟩ ⟨[], [5]⟩ [5] true [Eff.factoryCall 1 none] 77 9
      (by decide)⟩

/-- Claim C4, counterexample: when the consumer function throws, the claim
that `availableSize` afterwards equals its pre-acquire value fails if the
acquire lazily created the resource: on an empty pool whose factory
produces resource `0`, the acquire creates `0` directly in-use
(`availableSize = 0` before), and the `finally` release puts it in the
available set, so `availableSize = 1` afterwards. -/
theorem c4_counterexample :
    acquireStep cfgConst0 pEmpty true true =
      (AcquireRes.sync 0, ⟨[], [0]⟩, [Eff.factoryCall 0 (some 0), Eff.emitAcquire 0]) ∧
    size (limitedAfterAcquire 0 0 0 ⟨[], [0]⟩ (FnOutcome.err 5 1)).finalPool ≠ size pEmpty := by
  decide

/-- Claim C4, amended: when the consumer function throws or rejects with
error `e` after `D` time units, the invocation rejects with that same
error `e` (not wrapped), no throttle delay is applied (`pool.release` runs
at the rejection instant `t0 + D`), `fn` was called, and the acquired
resource is released back to the pool: `inUseSize` returns to its
pre-acquire value, and `availableSize` returns to its pre-acquire value
when the resource came from the available set — when the acquire lazily
created the resource, `availableSize` is one greater instead (still no
resource leaked in use). -/
theorem c4_amended_error_release (cfg : PoolCfg) (p p1 : PoolState)
    (T t0 ctx e D : Nat) (evs : List Eff)
    (hwf : wf p) (hctx : ctx ∉ p.inUse)
    (hacq : acquireStep cfg p true true = (AcquireRes.sync ctx, p1, evs)) :
    (limitedAfterAcquire T t0 ctx p1 (FnOutcome.err e D)).settled = Except.error e ∧
    (limitedAfterAcquire T t0 ctx p1 (FnOutcome.err e D)).releaseTime = some (t0 + D) ∧
    (limitedAfterAcquire T t0 ctx p1 (FnOutcome.err e D)).fnCalled = true ∧
    inUseSize (limitedAfterAcquire T t0 ctx p1 (FnOutcome.err e D)).finalPool = inUseSize p ∧
    size (limitedAfterAcquire T t0 ctx p1 (FnOutcome.err e D)).finalPool =
      (if p.resources = [] then size p + 1 else size p) := by
  refine ⟨rfl, rfl, rfl, ?_, ?_⟩ <;>
    rcases acquireStep_sync_inv cfg hacq with ⟨rest, hres, hp1⟩ | ⟨hres, _, hp1⟩ <;>
    subst hp1 <;>
    simp only [limitedAfterAcquire, releaseOp, mem_mapSet_self, if_true, inUseSize, size,
      erase_mapSet_self hctx]
  · have hrrest : ctx ∉ rest := by
      obtain ⟨hn, _, _⟩ := hwf
      rw [hres] at hn
      exact (List.nodup_cons.1 hn).1
    rw [hres, length_setAdd_of_not_mem hrrest]
    simp
  · rw [hres]
    simp [setAdd]

/-- Witness for C4 amended: the pre-filled pool `[10, 20, 30]`; the
throwing invocation releases `10` back, restoring `availableSize = 3`. -/
theorem c4_amended_error_release_witness :
    wf pABC ∧ (10 : Nat) ∉ pABC.inUse ∧
    acquireStep cfgNone pABC true true =
      (AcquireRes.sync 10, ⟨[20, 30], [10]⟩, [Eff.emitAcquire 10]) ∧
    ((limitedAfterAcquire 100 0 10 ⟨[20, 30], [10]⟩ (FnOutcome.err 5 1)).settled =
        Except.error 5 ∧
      (limitedAfterAcquire 100 0 10 ⟨[20, 30], [10]⟩ (FnOutcome.err 5 1)).releaseTime =
        some (0 + 1) ∧
      (limitedAfterAcquire 100 0 10 ⟨[20, 30], [10]⟩ (FnOutcome.err 5 1)).fnCalled = true ∧
      inUseSize (limitedAfterAcquire 100 0 10 ⟨[20, 30], [10]⟩ (FnOutcome.err 5 1)).finalPool =
        inUseSize pABC ∧
      size (limitedAfterAcquire 100 0 10 ⟨[20, 30], [10]⟩ (FnOutcome.err 5 1)).finalPool =
        (if pABC.resources = [] then size pABC + 1 else size pABC)) :=
  ⟨by decide, by decide, by decide,
    c4_amended_error_release cfgNone pABC ⟨[20, 30], [10]⟩ 100 0 10 5 1 [Eff.emitAcquire 10]
      (by decide) (by decide) (by decide)⟩

lemma createLoop_fail (cfg : PoolCfg) (f : Nat → Nat) :
    ∀ (l1 : List Nat) (res : List Nat) (k : Nat) (l2 : List Nat),
      (∀ i ∈ l1, cfg.create i = some (f i)) → cfg.create k = none →
      createLoop cfg res (l1 ++ k :: l2) =
        (l1.foldl (fun acc i => setAdd acc (f i)) res, true,
         l1.map (fun i => Eff.factoryCall i (some (f i))) ++ [Eff.factoryCall k none])
  | [], res, k, l2, _, hk => by simp [createLoop, hk]
  | i :: l1, res, k, l2, hs, hk => by
    have hi : cfg.create i = some (f i) := hs i (List.mem_cons_self i l1)
    have ih := createLoop_fail cfg f l1 (setAdd res (f i)) k l2
      (fun j hj => hs j (List.mem_cons_of_mem i hj)) hk
    simp [createLoop, hi, ih]

lemma mem_foldl_setAdd (f : Nat → Nat) :
    ∀ (l : List Nat) (acc : List Nat) (y : Nat),
      (y ∈ acc ∨ ∃ i ∈ l, f i = y) → y ∈ l.foldl (fun a i => setAdd a (f i)) acc
  | [], _, _, h => by
    rcases h with h | ⟨i, hi, _⟩
    · exact h
    · exact absurd hi (List.not_mem_nil i)
  | j :: l, acc, y, h => by
    apply mem_foldl_setAdd f l (setAdd acc (f j)) y
    rcases h with h | ⟨i, hi, he⟩
    · exact Or.inl (mem_setAdd.2 (Or.inl h))
    · rcases List.mem_cons.1 hi with rfl | hi'
      · exact Or.inl (mem_setAdd.2 (Or.inr he.symm))
      · exact Or.inr ⟨i, hi', he⟩

lemma range_split {n k : Nat} (hk : k < n) :
    ∃ l2, List.range n = List.range k ++ k :: l2 := by
  obtain ⟨d, rfl⟩ : ∃ d, n = k + (d + 1) := ⟨n - k - 1, by omega⟩
  refine ⟨(List.range d).map (fun x => k + (x + 1)), ?_⟩
  rw [List.range_add, List.range_succ_eq_map]
  simp [Function.comp]

/-- Claim C7 (confirmed): bulk `create(n)` requests resources from the
factory in loop-index order `0, 1, 2, ...`; when the factory returns
`Absent` (`undefined`) at index `k < n` after producing `f 0, ..., f (k-1)`,
the call throws synchronously (`Pool: create resource failed, ...` — the
exhaustion error), the factory-call trace is exactly indices `0..k-1`
(successful, in order) followed by the failing call at `k`, every resource
created before the failure is still in the available set afterwards (no
rollback), and the in-use registry is untouched. -/
theorem c7_bulk_create_failure (cfg : PoolCfg) (p : PoolState) (n k : Nat) (f : Nat → Nat)
    (hk : k < n) (hnone : cfg.create k = none)
    (hsome : ∀ i, i < k → cfg.create i = some (f i)) :
    (createOp cfg p n).2.1 = true ∧
    (createOp cfg p n).2.2 =
      (List.range k).map (fun i => Eff.factoryCall i (some (f i))) ++
        [Eff.factoryCall k none] ∧
    (∀ i, i < k → f i ∈ (createOp cfg p n).1.resources) ∧
    (createOp cfg p n).1.inUse = p.inUse := by
  obtain ⟨l2, hsplit⟩ := range_split hk
  have hloop := createLoop_fail cfg f (List.range k) p.resources k l2
    (fun i hi => hsome i (List.mem_range.1 hi)) hnone
  have hco : createOp cfg p n =
      (⟨(List.range k).foldl (fun acc i => setAdd acc (f i)) p.resources, p.inUse⟩, true,
       (List.range k).map (fun i => Eff.factoryCall i (some (f i))) ++
         [Eff.factoryCall k none]) := by
    unfold createOp
    rw [hsplit, hloop]
  rw [hco]
  refine ⟨rfl, rfl, ?_, rfl⟩
  intro i hi
  exact mem_foldl_setAdd f (List.range k) p.resources (f i)
    (Or.inr ⟨i, List.mem_range.2 hi, rfl⟩)

/-- Witness for C7: a factory exhausted after two resources, asked for
four: it throws after producing `100` and `101`, which remain available. -/
theorem c7_bulk_create_failure_witness :
    2 < 4 ∧ cfgUpto2.create 2 = none ∧
    ((createOp cfgUpto2 pEmpty 4).2.1 = true ∧
      (createOp cfgUpto2 pEmpty 4).2.2 =
        (List.range 2).map (fun i => Eff.factoryCall i (some (100 + i))) ++
          [Eff.factoryCall 2 none] ∧
      (∀ i, i < 2 → 100 + i ∈ (createOp cfgUpto2 pEmpty 4).1.resources) ∧
      (createOp cfgUpto2 pEmpty 4).1.inUse = pEmpty.inUse) :=
  ⟨by decide, by decide,
    c7_bulk_create_failure cfgUpto2 pEmpty 4 2 (fun i => 100 + i) (by decide) (by decide)
      (by decide)⟩

lemma createLoop_args_sublist (cfg : PoolCfg) :
    ∀ (L : List Nat) (res : List Nat),
      List.Sublist (factoryArgs (createLoop cfg res L).2.2) L
  | [], _ => by simp [createLoop, factoryArgs]
  | i :: rest, res => by
    cases hc : cfg.create i with
    | some x =>
      have ih := createLoop_args_sublist cfg rest (setAdd res x)
      simpa [createLoop, hc, factoryArgs] using List.Sublist.cons₂ i ih
    | none => simp [createLoop, hc, factoryArgs]

lemma stepEvs_lazy_args (cfg : PoolCfg) (p : PoolState) {op : Op}
    (hop : lazyOp op = true) :
    factoryArgs (stepEvs cfg p op) = [] ∨
    factoryArgs (stepEvs cfg p op) = [totalSize p] := by
  cases op with
  | create n => simp [lazyOp] at hop
  | clear => simp [lazyOp] at hop
  | release r =>
    left
    by_cases hr : r ∈ p.inUse <;> simp [stepEvs, releaseMicro, hr, factoryArgs]
  | acquire w a =>
    obtain ⟨res, inu⟩ := p
    cases res with
    | cons r rest => left; simp [stepEvs, acquireStep, factoryArgs]
    | nil =>
      right
      cases hc : cfg.create (totalSize ⟨[], inu⟩) with
      | some x => simp [stepEvs, acquireStep, hc, factoryArgs]
      | none => cases w <;> simp [stepEvs, acquireStep, hc, factoryArgs]

lemma wf_stepOp_lazy {cfg : PoolCfg} {p : PoolState} {op : Op}
    (hop : lazyOp op = true) (h : wf p) : wf (stepOp cfg p op) := by
  cases op with
  | create n => simp [lazyOp] at hop
  | clear => simp [lazyOp] at hop
  | release r => exact wf_releaseOp r h
  | acquire w a => exact wf_acquireStep cfg w a h

lemma totalSize_stepOp_mono {cfg : PoolCfg} {p : PoolState} {op : Op}
    (hwf : wf p) (hop : lazyOp op = true) :
    totalSize p ≤ totalSize (stepOp cfg p op) := by
  obtain ⟨res, inu⟩ := p
  obtain ⟨hnres, hnin, hdisj⟩ := hwf
  cases op with
  | create n => simp [lazyOp] at hop
  | clear => simp [lazyOp] at hop
  | release r =>
    simp only [stepOp, releaseOp]
    by_cases hr : r ∈ inu
    · simp only [if_pos hr]
      have h1 : r ∉ res := fun hres => hdisj r hres hr
      have h2 : (inu.erase r).length = inu.length - 1 := List.length_erase_of_mem hr
      have h3 : 0 < inu.length := List.length_pos.2 (List.ne_nil_of_mem hr)
      simp only [totalSize, inUseSize, size, h2, length_setAdd_of_not_mem h1]
      omega
    · simp [if_neg hr]
  | acquire w a =>
    cases res with
    | cons r rest =>
      have hrinu : r ∉ inu := hdisj r (List.mem_cons_self r rest)
      simp only [stepOp, acquireStep, totalSize, inUseSize, size,
        length_setAdd_of_not_mem hrinu]
      simp [mapSet_eq_append hrinu]
      omega
    | nil =>
      cases hc : cfg.create (totalSize ⟨[], inu⟩) with
      | some x =>
        have hc' : cfg.create inu.length = some x := by
          simpa [totalSize, inUseSize, size] using hc
        simp only [stepOp, acquireStep, totalSize, inUseSize, size, List.length_nil,
          Nat.add_zero, hc']
        by_cases hx : x ∈ inu
        · simp [mapSet, hx]
        · simp [mapSet_eq_append hx]
      | none =>
        have hc' : cfg.create inu.length = none := by
          simpa [totalSize, inUseSize, size] using hc
        cases w <;>
          simp [stepOp, acquireStep, totalSize, inUseSize, size, hc']

lemma args_runEvs_lazy (cfg : PoolCfg) :
    ∀ (ops : List Op) (p : PoolState), wf p → ops.all lazyOp = true →
      List.Chain' (· ≤ ·) (factoryArgs (runEvs cfg p ops)) ∧
      ∀ x ∈ factoryArgs (runEvs cfg p ops), totalSize p ≤ x
  | [], _, _, _ => by simp [runEvs, factoryArgs]
  | op :: rest, p, hwf, hall => by
    rw [List.all_cons, Bool.and_eq_true] at hall
    have hwf' : wf (stepOp cfg p op) := wf_stepOp_lazy hall.1 hwf
    have hmono : totalSize p ≤ totalSize (stepOp cfg p op) :=
      totalSize_stepOp_mono hwf hall.1
    have ih := args_runEvs_lazy cfg rest (stepOp cfg p op) hwf' hall.2
    have happ : factoryArgs (runEvs cfg p (op :: rest)) =
        factoryArgs (stepEvs cfg p op) ++ factoryArgs (runEvs cfg (stepOp cfg p op) rest) := by
      simp [runEvs, factoryArgs]
    rcases stepEvs_lazy_args cfg p hall.1 with h1 | h1 <;>
      rw [happ, h1]
    · refine ⟨by simpa using ih.1, ?_⟩
      intro x hx
      exact le_trans hmono (ih.2 x (by simpa using hx))
    · rw [List.singleton_append]
      refine ⟨List.chain'_cons'.2 ⟨?_, ih.1⟩, ?_⟩
      · intro y hy
        exact le_trans hmono (ih.2 y (List.mem_of_mem_head? hy))
      · intro x hx
        rcases List.mem_cons.1 hx with rfl | hx'
        · exact le_refl _
        · exact le_trans hmono (ih.2 x hx')

/-- Claim C8, counterexample: the factory-argument sequence is NOT
monotone over every operation sequence.  With the constant factory, the
trace `create(2); create(1)` calls the factory with arguments
`0, 1, 0` — the second bulk create restarts its loop counter at `0`,
below the `1` passed earlier. -/
theorem c8_counterexample :
    ¬ List.Chain' (· ≤ ·)
        (factoryArgs (runEvs cfgConst0 pEmpty [Op.create 2, Op.create 1])) := by
  have hargs : factoryArgs (runEvs cfgConst0 pEmpty [Op.create 2, Op.create 1]) =
      [0, 1, 0] := by decide
  rw [hargs]
  simp [List.chain'_cons]

/-- Claim C8, amended: the factory argument never decreases (a) within a
single bulk `create(n)` call, whose arguments are consecutive loop indices
(a sublist of `0, ..., n-1`), and (b) across any sequence of `acquire` and
`release` operations on a well-formed pool, where every lazy creation
passes the current `totalSize`, which never shrinks under those
operations.  Monotonicity can fail across two bulk creates (each restarts
at index `0`) or after `clear` (which resets `totalSize`). -/
theorem c8_amended_monotone (cfg : PoolCfg) (p : PoolState) (n : Nat) (ops : List Op)
    (hwf : wf p) (hops : ops.all lazyOp = true) :
    List.Chain' (· ≤ ·) (factoryArgs (stepEvs cfg p (Op.create n))) ∧
    List.Chain' (· ≤ ·) (factoryArgs (runEvs cfg p ops)) := by
  constructor
  · have hsub : List.Sublist (factoryArgs (stepEvs cfg p (Op.create n))) (List.range n) := by
      simpa [stepEvs, createOp] using
        createLoop_args_sublist cfg (List.range n) p.resources
    exact List.Chain'.sublist ((List.pairwise_le_range n).chain') hsub
  · exact (args_runEvs_lazy cfg ops p hwf hops).1

/-- Witness for C8 amended: fresh factory, `create(3)` on one side,
`acquire(); acquire(); release(100)` on a well-formed pool on the other. -/
theorem c8_amended_monotone_witness :
    wf pEmpty ∧
    ([Op.acquire false false, Op.acquire false false, Op.release 100].all lazyOp = true) ∧
    (List.Chain' (· ≤ ·) (factoryArgs (stepEvs cfgFresh pEmpty (Op.create 3))) ∧
      List.Chain' (· ≤ ·)
        (factoryArgs (runEvs cfgFresh pEmpty
          [Op.acquire false false, Op.acquire false false, Op.release 100]))) :=
  ⟨by decide, by decide,
    c8_amended_monotone cfgFresh pEmpty 3
      [Op.acquire false false, Op.acquire false false, Op.release 100]
      (by decide) (by decide)⟩

lemma qStep_nodup {q : Queued} {op : QOp} (h : q.fns.Nodup) : (qStep q op).fns.Nodup := by
  cases op with
  | add f => exact setAdd_nodup h
  | remove f => exact h.erase f
  | clear => exact List.nodup_nil

lemma qBuild_nodup_aux :
    ∀ (ops : List QOp) (q : Queued), q.fns.Nodup → (ops.foldl qStep q).fns.Nodup
  | [], _, h => h
  | op :: rest, q, h => qBuild_nodup_aux rest (qStep q op) (qStep_nodup h)

lemma qBuild_nodup (ops : List QOp) : (qBuild ops).fns.Nodup :=
  qBuild_nodup_aux ops ⟨[]⟩ List.nodup_nil

lemma mem_foldl_qStep (f : Nat) :
    ∀ (ops : List QOp) (q : Queued), q.fns.Nodup →
      decide (f ∈ (ops.foldl qStep q).fns) = ops.foldl (regStep f) (decide (f ∈ q.fns))
  | [], _, _ => rfl
  | op :: rest, q, hn => by
    rw [List.foldl_cons, List.foldl_cons,
      mem_foldl_qStep f rest (qStep q op) (qStep_nodup hn)]
    congr 1
    cases op with
    | add g =>
      have hiff : (f ∈ setAdd q.fns g) = (f ∈ q.fns ∨ g = f) := by
        rw [eq_iff_iff, mem_setAdd]
        exact or_congr Iff.rfl eq_comm
      simp [qStep, qAdd, regStep, hiff]
    | remove g =>
      have hiff : (f ∈ q.fns.erase g) = (f ≠ g ∧ f ∈ q.fns) := by
        rw [eq_iff_iff]
        exact hn.mem_erase_iff
      by_cases hg : g = f
      · subst hg
        simp [qStep, qRemove, regStep, hiff]
      · have hfg : f ≠ g := fun e => hg e.symm
        simp [qStep, qRemove, regStep, hiff, hg, hfg]
    | clear => simp [qStep, qClear, regStep]

lemma registered_iff_mem (ops : List QOp) (f : Nat) :
    registeredSpec ops f = decide (f ∈ (qBuild ops).fns) :=
  (mem_foldl_qStep f ops ⟨[]⟩ List.nodup_nil).symm

/-- Claim C9 (confirmed): emitting an event (`#emit` calling the queue as a
function, i.e. `fnSet.forEach(fn => fn.apply(this, args))`) synchronously
invokes exactly the handlers currently registered for that event, once
each, in the registry's insertion order (registrations append new handlers
at the tail, so dispatch follows registration order); the registry is
unchanged by the dispatch, so emitting again invokes the same handlers
again.  `qBuild ops` is the registry after an arbitrary history of
`add`/`remove`/`clear` calls, and `registeredSpec` reads the registered
set off that history independently. -/
theorem c9_emit_all_handlers (ops : List QOp) (f item : Nat) :
    (qRun (qBuild ops) item).1 = (qBuild ops).fns.map (fun g => (g, item)) ∧
    List.count f ((qRun (qBuild ops) item).1.map Prod.fst) =
      (if registeredSpec ops f = true then 1 else 0) ∧
    (qRun (qBuild ops) item).2 = qBuild ops ∧
    (qRun (qRun (qBuild ops) item).2 item).1 = (qRun (qBuild ops) item).1 ∧
    (qRun (qAdd (qBuild ops) f) item).1 =
      (if f ∈ (qBuild ops).fns then (qRun (qBuild ops) item).1
       else (qRun (qBuild ops) item).1 ++ [(f, item)]) := by
  refine ⟨rfl, ?_, rfl, rfl, ?_⟩
  · rw [registered_iff_mem]
    have hmap : ((qRun (qBuild ops) item).1.map Prod.fst) = (qBuild ops).fns := by
      simp only [qRun, List.map_map]
      exact List.map_id _ ▸ List.map_congr_left fun a _ => rfl
    rw [hmap]
    by_cases hf : f ∈ (qBuild ops).fns
    · rw [List.count_eq_one_of_mem (qBuild_nodup ops) hf]
      simp [hf]
    · rw [List.count_eq_zero_of_not_mem hf]
      simp [hf]
  · by_cases hf : f ∈ (qBuild ops).fns <;>
      simp [qRun, qAdd, setAdd, hf]

end PoolJs
